import Mathlib

/-!
Verification of the flag-set data type, iterator and text parser/formatter of
the `bitflags` repository.  The repository sources only contain `lib.rs`
(the code-generation macro skeleton, its doc comments and doctests); the
bodies of the generated operations live in `traits.rs` / `iter.rs` /
`parser.rs`, which are not part of the sources here, so the operations are
modelled from the specification, and checked against the doctests that do
appear in `lib.rs`.

Machine integers of width `w` are modelled as `Nat`, with bitwise negation
made explicit as `(2 ^ w - 1) ^^^ v`.  Strings are modelled as `List Char`.
-/

namespace Bitflags

/-- Modelled from the spec: a flag declaration, a (case-sensitive) name
together with a fixed bit pattern of the set's underlying width. -/
structure FlagDecl where
  name : List Char
  bits : Nat
deriving DecidableEq, Repr

/-- Modelled from the spec: a flag-set type, i.e. an underlying integer
width and the closed, ordered table of declared flags. -/
structure FlagSpec where
  width : Nat
  flags : List FlagDecl
deriving DecidableEq, Repr

/-- Modelled from the spec: the "all flags" value is the bitwise union of
every declared flag's bits. -/
def FlagSpec.allBits (s : FlagSpec) : Nat :=
  s.flags.foldl (fun acc f => acc ||| f.bits) 0

/-- Bitwise NOT of a `w`-bit machine integer, written explicitly. -/
def wnot (w v : Nat) : Nat := (2 ^ w - 1) ^^^ v

/-- Modelled from the spec (`traits.rs` is not in the sources):
`from_bits_truncate` drops bits not corresponding to declared flags, where
each declared flag is treated as a single atomic unit: a flag's bits are
kept only when the input contains the whole flag (per the multi-bit doctest
in `lib.rs` lines 371-373). -/
def from_bits_truncate (s : FlagSpec) (x : Nat) : Nat :=
  s.flags.foldl (fun acc f => if x &&& f.bits = f.bits then acc ||| f.bits else acc) 0

/-- Modelled from the spec (`traits.rs` is not in the sources): `from_bits`
is the exact conversion: it succeeds exactly when the truncated bits equal
the input bits. -/
def from_bits (s : FlagSpec) (x : Nat) : Option Nat :=
  if from_bits_truncate s x = x then some (from_bits_truncate s x) else none

/-- Modelled from the spec: `from_bits_retain` keeps all bits verbatim. -/
def from_bits_retain (x : Nat) : Nat := x

/-- Modelled from the spec (`traits.rs` is not in the sources): `from_name`
returns the bits of the declared flag whose name exactly matches. -/
def from_name (s : FlagSpec) (n : List Char) : Option Nat :=
  (s.flags.find? (fun f => f.name == n)).map (fun f => f.bits)

/-- Modelled from the spec: `contains` is the plain bitwise subset test. -/
def contains (a b : Nat) : Bool := a &&& b == b

/-- Modelled from the spec: `intersects` is true iff the bitwise AND is
nonzero. -/
def intersects (a b : Nat) : Bool := a &&& b != 0

/-- Modelled from the spec: `is_empty` is true iff the bits are zero. -/
def is_empty (v : Nat) : Bool := v == 0

/-- Modelled from the spec: `is_all` is true iff the bits cover (are a
superset of) the union of all declared flags. -/
def is_all (s : FlagSpec) (v : Nat) : Bool := s.allBits &&& v == s.allBits

/-- Modelled from the spec: `union` is bitwise OR. -/
def union (a b : Nat) : Nat := a ||| b

/-- Modelled from the spec: `intersection` is bitwise AND. -/
def intersection (a b : Nat) : Nat := a &&& b

/-- Modelled from the spec: `symmetric_difference` is bitwise XOR. -/
def symmetric_difference (a b : Nat) : Nat := a ^^^ b

/-- Modelled from the spec: `difference` is `self AND NOT other` at the
underlying width. -/
def difference (s : FlagSpec) (a b : Nat) : Nat := a &&& wnot s.width b

/-- Modelled from the spec: `complement` is the bitwise NOT restricted to
the declared bits — it explicitly masks away anything not covered by
`all()`, so unknown bits are cleared in the result. -/
def complement (s : FlagSpec) (v : Nat) : Nat := wnot s.width v &&& s.allBits

/- Concrete flag-set instances used by witnesses, taken from the doctests
in `lib.rs`. -/

/-- The three-flag table `A = 0b001`, `B = 0b010`, `C = 0b100` over `u8`. -/
def specABC : FlagSpec :=
  { width := 8, flags := [⟨['A'], 1⟩, ⟨['B'], 2⟩, ⟨['C'], 4⟩] }

/-- The single multi-bit flag table `F3 = 0b011` over `u8` from the
multi-bit doctest in `lib.rs`. -/
def specF3 : FlagSpec :=
  { width := 8, flags := [⟨['F', '3'], 3⟩] }

/- ### Bitwise helper lemmas -/

theorem subset_of_land_eq {a b : Nat} (h : a &&& b = b) :
    ∀ i, b.testBit i = true → a.testBit i = true := by
  intro i hb
  have h2 := congrArg (fun x => x.testBit i) h
  simp only [Nat.testBit_and] at h2
  cases ha : a.testBit i
  · exfalso; rw [ha, hb] at h2; simp at h2
  · rfl

theorem land_eq_of_subset {a b : Nat}
    (h : ∀ i, b.testBit i = true → a.testBit i = true) : a &&& b = b := by
  apply Nat.eq_of_testBit_eq
  intro i
  simp only [Nat.testBit_and]
  cases hb : b.testBit i
  · simp
  · simp [h i hb]

theorem lor_xor_of_subset {rem b : Nat} (h : rem &&& b = b) :
    b ||| (rem ^^^ b) = rem := by
  have hs := subset_of_land_eq h
  apply Nat.eq_of_testBit_eq
  intro i
  simp only [Nat.testBit_or, Nat.testBit_xor]
  cases hb : b.testBit i
  · simp
  · simp [hs i hb, hb]

theorem testBit_xor_subset {rem b : Nat} (h : rem &&& b = b) {i : Nat}
    (hx : (rem ^^^ b).testBit i = true) : rem.testBit i = true := by
  have hs := subset_of_land_eq h
  simp only [Nat.testBit_xor] at hx
  cases hb : b.testBit i
  · rw [hb] at hx; simpa using hx
  · exact hs i hb

theorem lt_two_pow_of_subset {a b w : Nat}
    (hsub : ∀ i, a.testBit i = true → b.testBit i = true) (hb : b < 2 ^ w) :
    a < 2 ^ w := by
  apply Nat.lt_pow_two_of_testBit
  intro i hi
  cases ha : a.testBit i
  · rfl
  · exfalso
    have hbi := hsub i ha
    have : b < 2 ^ i := lt_of_lt_of_le hb (Nat.pow_le_pow_right (by omega) hi)
    rw [Nat.testBit_lt_two_pow this] at hbi
    exact Bool.false_ne_true hbi

/- ### Claim theorems: conversions and predicates -/

/-- Claim C1: `from_bits(x)` is absent exactly when
`from_bits_truncate(x).bits() != x`; when it is present, it returns a value
whose bits equal `x`. -/
theorem C1_from_bits_exact (s : FlagSpec) (x : Nat) :
    (from_bits s x = none ↔ from_bits_truncate s x ≠ x) ∧
      (from_bits s x ≠ none → from_bits s x = some x) := by
  unfold from_bits
  by_cases h : from_bits_truncate s x = x
  · simp [h]
  · simp [h]

/-- Witness for C1 at a concrete input: `0b101` is a valid bit pattern for
the `A`/`B`/`C` table, so `from_bits` returns it unchanged. -/
theorem C1_from_bits_exact_witness : from_bits specABC 5 = some 5 :=
  (C1_from_bits_exact specABC 5).2 (by decide)

/-- Claim C2: `contains` is the plain bitwise subset test, with no
per-declared-flag decomposition; consequently every value — including
`empty()`, i.e. bits `0` — contains a flag declared with bit pattern `0`. -/
theorem C2_contains_subset (a b : Nat) :
    (contains a b = true ↔ a &&& b = b) ∧ contains a 0 = true := by
  constructor
  · simp [contains]
  · simp [contains]

/-- Claim C5: a flag declared with multiple bits set is treated as a single
atomic unit: with the single declared flag `F3 = 0b011`, `from_bits 0b001`
is rejected as a whole and `from_bits_truncate 0b001` drops the partial
overlap as a whole, giving the empty value. -/
theorem C5_multibit_atomic :
    from_bits specF3 1 = none ∧ from_bits_truncate specF3 1 = 0 ∧
      is_empty (from_bits_truncate specF3 1) = true := by
  decide

/-- Claim C7: `is_all(v)` holds exactly when `v`'s bits are a superset of
the union of every declared flag's bits, and unknown bits never prevent
`is_all` from holding: adding any further bits preserves it. -/
theorem C7_is_all_superset (s : FlagSpec) (v : Nat) :
    (is_all s v = true ↔ s.allBits &&& v = s.allBits) ∧
      (∀ u, is_all s v = true → is_all s (v ||| u) = true) := by
  constructor
  · simp [is_all]
  · intro u h
    simp only [is_all, beq_iff_eq] at h ⊢
    apply Nat.eq_of_testBit_eq
    intro i
    have h2 := congrArg (fun x => x.testBit i) h
    simp only [Nat.testBit_and] at h2
    simp only [Nat.testBit_and, Nat.testBit_or]
    cases ha : (FlagSpec.allBits s).testBit i
    · simp
    · rw [ha] at h2
      simp only [Bool.true_and] at h2
      simp [h2]

/-- Witness for C7: the value `0b111 ||| 0b1000` has all declared `A`/`B`/`C`
bits set plus an unknown bit, and `is_all` still holds. -/
theorem C7_is_all_superset_witness : is_all specABC (7 ||| 8) = true :=
  (C7_is_all_superset specABC 7).2 8 (by decide)

/- ### Claim theorems: set algebra -/

/-- Claim C4: `complement` is bitwise NOT masked to the declared bits, so
unknown bits are cleared in its result, while `union`, `intersection`,
`difference` and `symmetric_difference` act bitwise even at unknown-bit
positions, preserving unknown bits present in their operands. -/
theorem C4_complement_masks (s : FlagSpec) (v a b : Nat) :
    complement s v = wnot s.width v &&& s.allBits ∧
      (∀ i, i < s.width → s.allBits.testBit i = false →
        ((complement s v).testBit i = false ∧
          (union a b).testBit i = (a.testBit i || b.testBit i) ∧
          (intersection a b).testBit i = (a.testBit i && b.testBit i) ∧
          (difference s a b).testBit i = (a.testBit i && !(b.testBit i)) ∧
          (symmetric_difference a b).testBit i = ((a.testBit i).xor (b.testBit i)))) := by
  refine ⟨rfl, ?_⟩
  intro i hi hall
  refine ⟨?_, ?_, ?_, ?_, ?_⟩
  · simp [complement, Nat.testBit_and, hall]
  · simp [union, Nat.testBit_or]
  · simp [intersection, Nat.testBit_and]
  · simp [difference, wnot, Nat.testBit_and, Nat.testBit_xor,
      Nat.testBit_two_pow_sub_one, hi]
  · simp [symmetric_difference, Nat.testBit_xor, Bool.xor_comm]

/-- Witness for C4: bit `3` is below the width and unknown to the
`A`/`B`/`C` table, and complement clears it even though the input has it. -/
theorem C4_complement_masks_witness : (complement specABC 9).testBit 3 = false :=
  ((C4_complement_masks specABC 9 5 6).2 3 (by decide) (by decide)).1

/-- Claim C8: for every value `v`, including values with unknown bits, the
declared-bit portion of `v.union(v.complement())` covers exactly `all()`. -/
theorem C8_union_complement_covers (s : FlagSpec) (v : Nat)
    (hw : s.allBits < 2 ^ s.width) :
    union v (complement s v) &&& s.allBits = s.allBits := by
  apply Nat.eq_of_testBit_eq
  intro i
  simp only [union, complement, wnot, Nat.testBit_and, Nat.testBit_or, Nat.testBit_xor,
    Nat.testBit_two_pow_sub_one]
  cases hall : s.allBits.testBit i
  · simp
  · have hi : i < s.width := by
      by_contra hge
      have hlt : s.allBits < 2 ^ i :=
        lt_of_lt_of_le hw (Nat.pow_le_pow_right (by omega) (by omega))
      simp [Nat.testBit_lt_two_pow hlt] at hall
    simp only [decide_eq_true hi, Bool.true_xor, Bool.and_true]
    cases hv : v.testBit i <;> simp

/-- Witness for C8 at the `A`/`B`/`C` table with an unknown bit present. -/
theorem C8_union_complement_covers_witness :
    union 9 (complement specABC 9) &&& specABC.allBits = specABC.allBits :=
  C8_union_complement_covers specABC 9 (by decide)

/- ### Claim theorems: operators -/

/-- Modelled from the spec (the operator impls are not in the sources;
`lib.rs` documents `BitOr` as union): the `|` operator. -/
def opBitOr (a b : Nat) : Nat := union a b

/-- Modelled from the spec (`lib.rs` documents `BitAnd` as intersection):
the `&` operator. -/
def opBitAnd (a b : Nat) : Nat := intersection a b

/-- Modelled from the spec (`lib.rs` documents `BitXor` as toggle, i.e.
symmetric difference): the `^` operator. -/
def opBitXor (a b : Nat) : Nat := symmetric_difference a b

/-- Modelled from the spec (`lib.rs` documents `Sub` as set difference):
the `-` operator. -/
def opSub (s : FlagSpec) (a b : Nat) : Nat := difference s a b

/-- Modelled from the spec (`lib.rs` documents `Not` as set complement):
the `!` operator. -/
def opNot (s : FlagSpec) (a : Nat) : Nat := complement s a

/-- The four-flag table of the `bitflags!` doctest in `lib.rs` lines 22-39:
`A = 1`, `B = 2`, `C = 4`, `ABC = A | B | C` over `u32`. -/
def specDoc : FlagSpec :=
  { width := 32
    flags := [⟨['A'], 1⟩, ⟨['B'], 2⟩, ⟨['C'], 4⟩, ⟨['A', 'B', 'C'], 7⟩] }

/-- Claim C9: each overloaded operator coincides with its named method, and
the operator doctest of `lib.rs` lines 33-38 holds: with `e1 = A | C` and
`e2 = B | C`, `e1 | e2 = ABC`, `e1 & e2 = C`, `e1 - e2 = A`, `!e2 = A`. -/
theorem C9_ops_match_methods (s : FlagSpec) (a b : Nat) :
    opBitOr a b = union a b ∧ opBitAnd a b = intersection a b ∧
      opBitXor a b = symmetric_difference a b ∧ opSub s a b = difference s a b ∧
      opNot s a = complement s a ∧
      opBitOr (opBitOr 1 4) (opBitOr 2 4) = 7 ∧
      opBitAnd (opBitOr 1 4) (opBitOr 2 4) = 4 ∧
      opSub specDoc (opBitOr 1 4) (opBitOr 2 4) = 1 ∧
      opNot specDoc (opBitOr 2 4) = 1 := by
  refine ⟨rfl, rfl, rfl, rfl, rfl, by decide, by decide, by decide, by decide⟩

/- ### Claim theorems: double complement (C10) -/

/-- Claim C10 fails as stated: with the single multi-bit flag `F3 = 0b011`,
double complement of `0b001` gives back `0b001`, while
`from_bits_truncate 0b001` drops the partial overlap atomically and gives
the empty value. -/
theorem C10_counterexample :
    complement specF3 (complement specF3 1) = 1 ∧
      from_bits_truncate specF3 1 = 0 ∧
      complement specF3 (complement specF3 1) ≠ from_bits_truncate specF3 1 := by
  decide

/-- Claim C10 (amended): applying complement twice masks a value to its
declared bits, `v &&& all()`, and double complement is the identity exactly
on values containing no unknown bits; it agrees with `from_bits_truncate`
only when no declared flag partially overlaps the value. -/
theorem C10_double_complement_masks (s : FlagSpec) (v : Nat)
    (hw : s.allBits < 2 ^ s.width) :
    complement s (complement s v) = v &&& s.allBits ∧
      (complement s (complement s v) = v ↔ v &&& s.allBits = v) := by
  have h1 : complement s (complement s v) = v &&& s.allBits := by
    apply Nat.eq_of_testBit_eq
    intro i
    simp only [complement, wnot, Nat.testBit_and, Nat.testBit_xor,
      Nat.testBit_two_pow_sub_one]
    cases hall : s.allBits.testBit i
    · simp
    · have hi : i < s.width := by
        by_contra hge
        have hlt : s.allBits < 2 ^ i :=
          lt_of_lt_of_le hw (Nat.pow_le_pow_right (by omega) (by omega))
        simp [Nat.testBit_lt_two_pow hlt] at hall
      simp only [decide_eq_true hi, Bool.true_xor, Bool.and_true]
      cases hv : v.testBit i <;> simp
  exact ⟨h1, by rw [h1]⟩

/-- Witness for the amended C10 at the multi-bit table with an unknown bit:
double complement of `0b1001` gives `0b1001 &&& 0b011 = 0b001`. -/
theorem C10_double_complement_masks_witness :
    complement specF3 (complement specF3 9) = 9 &&& specF3.allBits :=
  (C10_double_complement_masks specF3 9 (by decide)).1

/- ### The iterator over set flags -/

/-- Modelled from the spec (`iter.rs` is not in the sources): walking the
declared flags in declaration order over the remaining unmatched bits,
yielding each flag whose bits are a non-zero subset of the remaining bits
and consuming the matched bits (under the guard `rem &&& f.bits = f.bits`,
`rem ^^^ f.bits` is exactly the removal of those bits).  Returns the yielded
`(name, bits)` pairs and the final remaining (unknown) bits. -/
def iterNamesAux : List FlagDecl → Nat → List (List Char × Nat) × Nat
  | [], rem => ([], rem)
  | f :: rest, rem =>
    if f.bits ≠ 0 ∧ rem &&& f.bits = f.bits then
      ((f.name, f.bits) :: (iterNamesAux rest (rem ^^^ f.bits)).1,
        (iterNamesAux rest (rem ^^^ f.bits)).2)
    else
      iterNamesAux rest rem

/-- Modelled from the spec: the sequence of `(name, flag-bits)` pairs
produced by iterating a value. -/
def iter_names (s : FlagSpec) (v : Nat) : List (List Char × Nat) :=
  (iterNamesAux s.flags v).1

/-- The bits of the value not consumed by any yielded flag. -/
def iterRemaining (s : FlagSpec) (v : Nat) : Nat :=
  (iterNamesAux s.flags v).2

theorem iterNamesAux_bits (fs : List FlagDecl) :
    ∀ (rem acc : Nat),
      ((iterNamesAux fs rem).1.foldl (fun a p => a ||| p.2) acc) |||
          (iterNamesAux fs rem).2 = acc ||| rem := by
  induction fs with
  | nil => intro rem acc; simp [iterNamesAux]
  | cons f rest ih =>
    intro rem acc
    by_cases hc : f.bits ≠ 0 ∧ rem &&& f.bits = f.bits
    · simp only [iterNamesAux, if_pos hc, List.foldl_cons]
      rw [ih (rem ^^^ f.bits) (acc ||| f.bits), Nat.lor_assoc,
        lor_xor_of_subset hc.2]
    · simp only [iterNamesAux, if_neg hc]
      exact ih rem acc

theorem iterNamesAux_rem_subset (fs : List FlagDecl) :
    ∀ (rem i : Nat), ((iterNamesAux fs rem).2).testBit i = true →
      rem.testBit i = true := by
  induction fs with
  | nil => intro rem i h; simpa [iterNamesAux] using h
  | cons f rest ih =>
    intro rem i h
    by_cases hc : f.bits ≠ 0 ∧ rem &&& f.bits = f.bits
    · rw [iterNamesAux, if_pos hc] at h
      exact testBit_xor_subset hc.2 (ih (rem ^^^ f.bits) i h)
    · rw [iterNamesAux, if_neg hc] at h
      exact ih rem i h

theorem iterNamesAux_mem (fs : List FlagDecl) :
    ∀ (rem : Nat) (p : List Char × Nat), p ∈ (iterNamesAux fs rem).1 →
      ∃ f, f ∈ fs ∧ p = (f.name, f.bits) ∧ f.bits ≠ 0 ∧
        rem &&& f.bits = f.bits := by
  induction fs with
  | nil => intro rem p h; simp [iterNamesAux] at h
  | cons f rest ih =>
    intro rem p h
    by_cases hc : f.bits ≠ 0 ∧ rem &&& f.bits = f.bits
    · rw [iterNamesAux, if_pos hc] at h
      rcases List.mem_cons.mp h with heq | hmem
      · exact ⟨f, List.mem_cons_self f rest, heq, hc.1, hc.2⟩
      · obtain ⟨g, hg, hpg, hgne, hgsub⟩ := ih (rem ^^^ f.bits) p hmem
        refine ⟨g, List.mem_cons_of_mem f hg, hpg, hgne, ?_⟩
        apply land_eq_of_subset
        intro i hgi
        exact testBit_xor_subset hc.2 (subset_of_land_eq hgsub i hgi)
    · rw [iterNamesAux, if_neg hc] at h
      obtain ⟨g, hg, hpg, hgne, hgsub⟩ := ih rem p h
      exact ⟨g, List.mem_cons_of_mem f hg, hpg, hgne, hgsub⟩

/-- The four-flag table with the composite flag `ABC = 0b111` declared
first, so it wins over its narrower components when iterating. -/
def specABCFirst : FlagSpec :=
  { width := 8
    flags := [⟨['A', 'B', 'C'], 7⟩, ⟨['A'], 1⟩, ⟨['B'], 2⟩, ⟨['C'], 4⟩] }

/-- Claim C6: iterating yields, in declaration order, exactly the declared
flags whose bits are a non-zero subset of the remaining bits, consuming
matched bits: over `A`/`B`/`C`, iterating `A|B|C` yields `[A, B, C]` each
exactly once; with the composite `ABC` declared first, iterating `0b111`
reports it once as `ABC` and never again as its components; and every
yielded pair is a declared flag with non-zero bits contained in the
value. -/
theorem C6_iter_declaration_order :
    iter_names specABC 7 = [(['A'], 1), (['B'], 2), (['C'], 4)] ∧
      iter_names specABCFirst 7 = [(['A', 'B', 'C'], 7)] ∧
      ∀ (s : FlagSpec) (v : Nat) (p : List Char × Nat), p ∈ iter_names s v →
        ∃ f, f ∈ s.flags ∧ p = (f.name, f.bits) ∧ f.bits ≠ 0 ∧
          v &&& f.bits = f.bits := by
  refine ⟨by decide, by decide, ?_⟩
  intro s v p hp
  exact iterNamesAux_mem s.flags v p hp

/-- Witness for C6: the pair `(B, 0b010)` yielded while iterating `0b111`
over the `A`/`B`/`C` table is a declared non-zero flag contained in the
value. -/
theorem C6_iter_declaration_order_witness :
    ∃ f, f ∈ specABC.flags ∧ ((['B'], 2) : List Char × Nat) = (f.name, f.bits) ∧
      f.bits ≠ 0 ∧ 7 &&& f.bits = f.bits :=
  C6_iter_declaration_order.2.2 specABC 7 (['B'], 2) (by decide)

/- ### Hexadecimal formatting and parsing -/

/-- The lowercase hexadecimal digit character for a value below 16. -/
def hexDigitChar (d : Nat) : Char :=
  match d with
  | 0 => '0' | 1 => '1' | 2 => '2' | 3 => '3'
  | 4 => '4' | 5 => '5' | 6 => '6' | 7 => '7'
  | 8 => '8' | 9 => '9' | 10 => 'a' | 11 => 'b'
  | 12 => 'c' | 13 => 'd' | 14 => 'e' | _ => 'f'

/-- Little-endian hexadecimal digit list of `n`, with explicit fuel so that
the recursion is structural (any fuel at least `n` is enough). -/
def toHexGo : Nat → Nat → List Char
  | 0, _ => []
  | fuel + 1, n =>
    if n = 0 then [] else hexDigitChar (n % 16) :: toHexGo fuel (n / 16)

/-- Modelled from the spec: the hexadecimal rendering of `n` without a
leading `0x`, most significant digit first, as produced when formatting
unknown bits. -/
def hexChars (n : Nat) : List Char :=
  if n = 0 then ['0'] else (toHexGo n n).reverse

/-- The numeric value of a hexadecimal digit character, if it is one
(both letter cases accepted, as in integer parsing with radix 16). -/
def parseHexDigit (c : Char) : Option Nat :=
  if '0'.toNat ≤ c.toNat ∧ c.toNat ≤ '9'.toNat then
    some (c.toNat - '0'.toNat)
  else if 'a'.toNat ≤ c.toNat ∧ c.toNat ≤ 'f'.toNat then
    some (c.toNat - 'a'.toNat + 10)
  else if 'A'.toNat ≤ c.toNat ∧ c.toNat ≤ 'F'.toNat then
    some (c.toNat - 'A'.toNat + 10)
  else
    none

/-- Accumulating hexadecimal parser over a digit list, most significant
digit first; fails on any non-digit. -/
def parseHexAux : List Char → Nat → Option Nat
  | [], acc => some acc
  | c :: rest, acc =>
    match parseHexDigit c with
    | some d => parseHexAux rest (acc * 16 + d)
    | none => none

/-- Modelled from the spec: parsing a (non-empty) hexadecimal digit
string. -/
def parseHexChars (l : List Char) : Option Nat :=
  match l with
  | [] => none
  | _ :: _ => parseHexAux l 0

/- ### Whitespace trimming and token splitting -/

/-- Whether a character is whitespace. -/
def isWs (c : Char) : Bool := c.isWhitespace

/-- Drop leading whitespace. -/
def dropLeadWs (l : List Char) : List Char := l.dropWhile isWs

/-- Modelled from the spec: trim whitespace from both ends of a token
(trailing first, via reversal, then leading). -/
def trimChars (l : List Char) : List Char :=
  dropLeadWs ((dropLeadWs l.reverse).reverse)

/-- Modelled from the spec: split the input on every `|` character. -/
def splitBar : List Char → List (List Char)
  | [] => [[]]
  | c :: rest =>
    if c = '|' then [] :: splitBar rest
    else (c :: (splitBar rest).headD []) :: (splitBar rest).tail

/-- Join parts with the separator `" | "` used when formatting. -/
def joinParts : List (List Char) → List Char
  | [] => []
  | [p] => p
  | p :: q :: ps => p ++ ' ' :: '|' :: ' ' :: joinParts (q :: ps)

/-- Whether a token begins with the literal characters `0x`. -/
def startsWith0x : List Char → Bool
  | '0' :: 'x' :: _ => true
  | _ => false

/-- The trailing `0x`-prefixed hexadecimal token of the unknown-bit
remainder. -/
def hexToken (n : Nat) : List Char := '0' :: 'x' :: hexChars n

/- ### The formatter and the parser -/

/-- Modelled from the spec (`parser.rs` is not in the sources): formatting
iterates the declared flags present in declaration order, joins their names
with `" | "`, appends bits not covered by any declared flag as a trailing
`0x`-prefixed hexadecimal literal of just the unknown remainder, and
formats an entirely-empty value as the empty string. -/
def formatFlags (s : FlagSpec) (v : Nat) : List Char :=
  joinParts ((iterNamesAux s.flags v).1.map Prod.fst ++
    (if (iterNamesAux s.flags v).2 = 0 then [] else [hexToken (iterNamesAux s.flags v).2]))

/-- Modelled from the spec: resolve a single trimmed token, either as an
exact flag name via `from_name`, or, if prefixed with `0x`, as a raw
hexadecimal bit literal validated against the underlying width; an empty
or unrecognized token is a parse failure. -/
def resolveTok (s : FlagSpec) (t : List Char) : Option Nat :=
  if t = [] then none
  else
    match from_name s t with
    | some b => some b
    | none =>
      if startsWith0x t then
        match parseHexChars (t.drop 2) with
        | some h => if h < 2 ^ s.width then some h else none
        | none => none
      else none

/-- Modelled from the spec: union all resolved token contributions,
failing if any token fails to resolve. -/
def parseToks (s : FlagSpec) : List (List Char) → Nat → Option Nat
  | [], acc => some acc
  | t :: ts, acc =>
    match resolveTok s t with
    | some b => parseToks s ts (acc ||| b)
    | none => none

/-- Modelled from the spec (`parser.rs` is not in the sources): parsing
splits on `|`, trims whitespace from each token, resolves each token and
unions the contributions; an entirely-empty (whitespace-only) input denotes
the empty value. -/
def parseFlags (s : FlagSpec) (l : List Char) : Option Nat :=
  if trimChars l = [] then some 0
  else parseToks s ((splitBar l).map trimChars) 0

/- ### Lemmas about hexadecimal round-tripping -/

theorem hexDigitChar_props : ∀ d, d < 16 →
    parseHexDigit (hexDigitChar d) = some d ∧ isWs (hexDigitChar d) = false ∧
      hexDigitChar d ≠ '|' := by decide

theorem parseHexAux_append_some {xs : List Char} :
    ∀ {acc a : Nat}, parseHexAux xs acc = some a → ∀ ys,
      parseHexAux (xs ++ ys) acc = parseHexAux ys a := by
  induction xs with
  | nil =>
    intro acc a h ys
    simp only [parseHexAux] at h
    cases h
    rfl
  | cons c xs2 ih =>
    intro acc a h ys
    cases hc : parseHexDigit c with
    | none =>
      simp only [parseHexAux, hc] at h
      exact Option.noConfusion h
    | some d =>
      simp only [parseHexAux, hc] at h ⊢
      exact ih h ys

theorem toHexGo_spec : ∀ (fuel : Nat), ∀ (n acc : Nat), n ≤ fuel →
    parseHexAux (toHexGo fuel n).reverse acc =
      some (acc * 16 ^ (toHexGo fuel n).length + n) := by
  intro fuel
  induction fuel with
  | zero =>
    intro n acc hle
    have hn : n = 0 := Nat.le_zero.mp hle
    subst hn
    simp [toHexGo, parseHexAux]
  | succ fuel2 ih =>
    intro n acc hle
    by_cases hn : n = 0
    · subst hn
      simp [toHexGo, parseHexAux]
    · have hstep : toHexGo (fuel2 + 1) n = hexDigitChar (n % 16) :: toHexGo fuel2 (n / 16) := by
        rw [toHexGo, if_neg hn]
      have hdiv : n / 16 ≤ fuel2 := by
        have : n / 16 < n := Nat.div_lt_self (Nat.pos_of_ne_zero hn) (by omega)
        omega
      rw [hstep, List.reverse_cons,
        parseHexAux_append_some (ih (n / 16) acc hdiv) [hexDigitChar (n % 16)]]
      have hdig := (hexDigitChar_props (n % 16) (Nat.mod_lt n (by omega))).1
      simp only [parseHexAux, hdig]
      congr 1
      have harith : ∀ L A : Nat,
          (A * 16 ^ L + n / 16) * 16 + n % 16 = A * 16 ^ (L + 1) + n := by
        intro L A
        calc (A * 16 ^ L + n / 16) * 16 + n % 16
            = A * (16 ^ L * 16) + (16 * (n / 16) + n % 16) := by ring
          _ = A * 16 ^ (L + 1) + n := by rw [Nat.div_add_mod, Nat.pow_succ]
      rw [List.length_cons]
      exact harith (toHexGo fuel2 (n / 16)).length acc

theorem hex_round_trip (n : Nat) : parseHexChars (hexChars n) = some n := by
  by_cases hn : n = 0
  · subst hn; decide
  · have hne : toHexGo n n ≠ [] := by
      obtain ⟨k, rfl⟩ := Nat.exists_eq_succ_of_ne_zero hn
      rw [toHexGo, if_neg hn]
      exact List.cons_ne_nil _ _
    have hchars : hexChars n = (toHexGo n n).reverse := by
      rw [hexChars, if_neg hn]
    have hne2 : hexChars n ≠ [] := by
      rw [hchars]
      simpa using hne
    obtain ⟨c, cs, hl⟩ : ∃ c cs, hexChars n = c :: cs := by
      cases hx : hexChars n with
      | nil => exact absurd hx hne2
      | cons c cs => exact ⟨c, cs, rfl⟩
    rw [hl]
    show parseHexAux (c :: cs) 0 = some n
    rw [← hl, hchars, toHexGo_spec n n 0 le_rfl]
    simp

theorem toHexGo_chars : ∀ (fuel n : Nat) (c : Char), c ∈ toHexGo fuel n →
    isWs c = false ∧ c ≠ '|' := by
  intro fuel
  induction fuel with
  | zero => intro n c h; simp [toHexGo] at h
  | succ fuel2 ih =>
    intro n c h
    by_cases hn : n = 0
    · rw [toHexGo, if_pos hn] at h; simp at h
    · rw [toHexGo, if_neg hn] at h
      rcases List.mem_cons.mp h with rfl | h2
      · exact (hexDigitChar_props (n % 16) (Nat.mod_lt n (by omega))).2
      · exact ih (n / 16) c h2

theorem hexChars_chars (n : Nat) (c : Char) (h : c ∈ hexChars n) :
    isWs c = false ∧ c ≠ '|' := by
  by_cases hn : n = 0
  · subst hn
    rw [hexChars, if_pos rfl] at h
    simp at h
    subst h
    exact ⟨by decide, by decide⟩
  · rw [hexChars, if_neg hn, List.mem_reverse] at h
    exact toHexGo_chars n n c h

theorem hexToken_chars (n : Nat) (c : Char) (h : c ∈ hexToken n) :
    isWs c = false ∧ c ≠ '|' := by
  rcases List.mem_cons.mp h with rfl | h2
  · exact ⟨by decide, by decide⟩
  · rcases List.mem_cons.mp h2 with rfl | h3
    · exact ⟨by decide, by decide⟩
    · exact hexChars_chars n c h3

/- ### Lemmas about trimming -/

theorem mem_dropWhile_of_not {p : Char → Bool} :
    ∀ (l : List Char) (c : Char), c ∈ l → p c = false → c ∈ l.dropWhile p := by
  intro l
  induction l with
  | nil => intro c h _; simp at h
  | cons a r ih =>
    intro c h hc
    rw [List.dropWhile_cons]
    by_cases ha : p a = true
    · rw [if_pos ha]
      rcases List.mem_cons.mp h with rfl | h2
      · rw [ha] at hc; exact absurd hc (by simp)
      · exact ih c h2 hc
    · rw [if_neg ha]
      exact h

theorem trimChars_ne_nil_of_mem {l : List Char} {c : Char} (hc : c ∈ l)
    (hws : isWs c = false) : trimChars l ≠ [] := by
  have h1 : c ∈ dropLeadWs l.reverse :=
    mem_dropWhile_of_not l.reverse c (List.mem_reverse.mpr hc) hws
  have h2 : c ∈ (dropLeadWs l.reverse).reverse := List.mem_reverse.mpr h1
  have h3 : c ∈ trimChars l := mem_dropWhile_of_not _ c h2 hws
  exact List.ne_nil_of_mem h3

theorem dropLeadWs_eq_self {l : List Char} (h : ∀ c ∈ l, isWs c = false) :
    dropLeadWs l = l := by
  cases l with
  | nil => rfl
  | cons a r =>
    show List.dropWhile isWs (a :: r) = a :: r
    rw [List.dropWhile_cons, if_neg]
    rw [h a (List.mem_cons_self a r)]
    simp

theorem trimChars_eq_self {l : List Char} (h : ∀ c ∈ l, isWs c = false) :
    trimChars l = l := by
  have hrev : ∀ c ∈ l.reverse, isWs c = false := fun c hc =>
    h c (List.mem_reverse.mp hc)
  rw [trimChars, dropLeadWs_eq_self hrev, List.reverse_reverse,
    dropLeadWs_eq_self h]

theorem exists_nonWs_of_trim_eq {l : List Char} (ht : trimChars l = l)
    (hne : l ≠ []) : ∃ c ∈ l, isWs c = false := by
  by_contra hall
  push_neg at hall
  have hws : ∀ c ∈ l.reverse, isWs c = true := by
    intro c hc
    have := hall c (List.mem_reverse.mp hc)
    simpa using this
  have hdrop : List.dropWhile isWs l.reverse = [] :=
    List.dropWhile_eq_nil_iff.mpr hws
  simp only [trimChars, dropLeadWs] at ht
  rw [hdrop] at ht
  simp at ht
  exact hne ht

theorem trimChars_append_space (t : List Char) :
    trimChars (t ++ [' ']) = trimChars t := by
  simp only [trimChars, dropLeadWs]
  have h1 : (t ++ [' ']).reverse = ' ' :: t.reverse := by simp
  rw [h1, List.dropWhile_cons, if_pos (by decide)]

theorem trimChars_cons_space (h : List Char) :
    trimChars (' ' :: h) = trimChars h := by
  simp only [trimChars, dropLeadWs]
  have h1 : (' ' :: h).reverse = h.reverse ++ [' '] := by simp
  rw [h1, List.dropWhile_append]
  by_cases hd : (List.dropWhile isWs h.reverse).isEmpty = true
  · rw [if_pos hd]
    have he : List.dropWhile isWs h.reverse = [] := by
      simpa [List.isEmpty_iff] using hd
    rw [he]
    rfl
  · rw [if_neg hd]
    have h2 : (List.dropWhile isWs h.reverse ++ [' ']).reverse
        = ' ' :: (List.dropWhile isWs h.reverse).reverse := by simp
    rw [h2, List.dropWhile_cons, if_pos (by decide)]

/- ### Lemmas about splitting and joining -/

theorem splitBar_ne_nil (l : List Char) : splitBar l ≠ [] := by
  cases l with
  | nil => simp [splitBar]
  | cons c r =>
    rw [splitBar]
    by_cases h : c = '|'
    · rw [if_pos h]; exact List.cons_ne_nil _ _
    · rw [if_neg h]; exact List.cons_ne_nil _ _

theorem splitBar_eq_head_tail (l : List Char) :
    splitBar l = (splitBar l).headD [] :: (splitBar l).tail := by
  have h := splitBar_ne_nil l
  cases hsp : splitBar l with
  | nil => exact absurd hsp h
  | cons a t => rfl

theorem splitBar_noBar_append (t : List Char) :
    ∀ (l : List Char), '|' ∉ t →
      splitBar (t ++ l) = (t ++ (splitBar l).headD []) :: (splitBar l).tail := by
  induction t with
  | nil =>
    intro l _
    simpa using splitBar_eq_head_tail l
  | cons c t2 ih =>
    intro l h
    have hc : ¬(c = '|') := fun hcc => h (hcc ▸ List.mem_cons_self c t2)
    have ht2 : '|' ∉ t2 := fun hm => h (List.mem_cons_of_mem c hm)
    show splitBar (c :: (t2 ++ l)) = _
    rw [splitBar, if_neg hc, ih l ht2]
    simp

theorem splitBar_bar_cons (l : List Char) :
    splitBar ('|' :: l) = [] :: splitBar l := by
  rw [splitBar, if_pos rfl]

/-- Splitting the `" | "`-joined parts back apart recovers the parts, up to
the whitespace trimming the parser applies to every token. -/
theorem split_join_cons : ∀ (ps : List (List Char)) (q : List Char),
    '|' ∉ q → (∀ p ∈ ps, '|' ∉ p) →
    (splitBar (joinParts (q :: ps))).map trimChars =
      trimChars q :: ps.map trimChars := by
  intro ps
  induction ps with
  | nil =>
    intro q hq _
    have h1 := splitBar_noBar_append q [] hq
    simp only [List.append_nil] at h1
    rw [joinParts, h1]
    simp [splitBar]
  | cons r rs ih =>
    intro q hq hps
    have hqs : '|' ∉ q ++ [' '] := by
      intro hm
      rcases List.mem_append.mp hm with hm1 | hm2
      · exact hq hm1
      · simp at hm2
    have hr : '|' ∉ r := hps r (List.mem_cons_self r rs)
    have hrs : ∀ p ∈ rs, '|' ∉ p := fun p hp => hps p (List.mem_cons_of_mem r hp)
    have hassoc : joinParts (q :: r :: rs) =
        (q ++ [' ']) ++ '|' :: ' ' :: joinParts (r :: rs) := by
      rw [joinParts]
      simp
    rw [hassoc, splitBar_noBar_append (q ++ [' ']) _ hqs, splitBar_bar_cons]
    have hsp : splitBar (' ' :: joinParts (r :: rs)) =
        (' ' :: (splitBar (joinParts (r :: rs))).headD []) ::
          (splitBar (joinParts (r :: rs))).tail := by
      have := splitBar_noBar_append [' '] (joinParts (r :: rs)) (by decide)
      simpa using this
    simp only [List.headD_cons, List.tail_cons, List.append_nil, hsp]
    have ihr := ih r hr hrs
    rw [splitBar_eq_head_tail (joinParts (r :: rs))] at ihr
    simp only [List.map_cons] at ihr ⊢
    have hhead := (List.cons.injEq _ _ _ _).mp ihr
    rw [trimChars_append_space, trimChars_cons_space, hhead.1, hhead.2]

/-- Every character of the first part occurs in the join. -/
theorem mem_joinParts_head {c : Char} {q : List Char} (hc : c ∈ q) :
    ∀ (ps : List (List Char)), c ∈ joinParts (q :: ps) := by
  intro ps
  cases ps with
  | nil => rw [joinParts]; exact hc
  | cons r rs =>
    rw [joinParts]
    exact List.mem_append_left _ hc

/-- Mapping a function that fixes every element of a list is the
identity. -/
theorem map_id_on {α : Type} (f : α → α) :
    ∀ (l : List α), (∀ x ∈ l, f x = x) → l.map f = l := by
  intro l
  induction l with
  | nil => intro _; rfl
  | cons a r ih =>
    intro h
    rw [List.map_cons, h a (List.mem_cons_self a r),
      ih (fun x hx => h x (List.mem_cons_of_mem a hx))]

/- ### Lemmas about token resolution -/

theorem resolveTok_name (s : FlagSpec) (t : List Char) (b : Nat)
    (hne : t ≠ []) (hfn : from_name s t = some b) : resolveTok s t = some b := by
  simp only [resolveTok, if_neg hne, hfn]

theorem from_name_hex_none (s : FlagSpec) (t : List Char)
    (h : ∀ f ∈ s.flags, startsWith0x f.name = false) :
    from_name s ('0' :: 'x' :: t) = none := by
  have hfind : List.find? (fun f => f.name == '0' :: 'x' :: t) s.flags = none := by
    rw [List.find?_eq_none]
    intro f hf hbeq
    have hname : f.name = '0' :: 'x' :: t := by simpa using hbeq
    have hsw := h f hf
    rw [hname] at hsw
    simp [startsWith0x] at hsw
  rw [from_name, hfind]
  rfl

theorem resolveTok_hex (s : FlagSpec) (n : Nat) (hlt : n < 2 ^ s.width)
    (h : ∀ f ∈ s.flags, startsWith0x f.name = false) :
    resolveTok s (hexToken n) = some n := by
  have h0 : from_name s (hexToken n) = none := from_name_hex_none s (hexChars n) h
  have hsw : startsWith0x (hexToken n) = true := rfl
  have hdrop : (hexToken n).drop 2 = hexChars n := rfl
  simp only [resolveTok, if_neg (show ¬(hexToken n = []) by simp [hexToken]), h0, hsw,
    if_pos, hdrop, hex_round_trip n, hlt, if_true]

theorem parseToks_names (s : FlagSpec) :
    ∀ (ps : List (List Char × Nat)) (tailT : List (List Char)) (acc : Nat),
      (∀ p ∈ ps, p.1 ≠ [] ∧ from_name s p.1 = some p.2) →
      parseToks s (ps.map Prod.fst ++ tailT) acc =
        parseToks s tailT (ps.foldl (fun a p => a ||| p.2) acc) := by
  intro ps
  induction ps with
  | nil => intro tailT acc _; rfl
  | cons p ps2 ih =>
    intro tailT acc h
    have hp := h p (List.mem_cons_self p ps2)
    have hrest : ∀ r ∈ ps2, r.1 ≠ [] ∧ from_name s r.1 = some r.2 :=
      fun r hr => h r (List.mem_cons_of_mem p hr)
    show parseToks s (p.1 :: (ps2.map Prod.fst ++ tailT)) acc = _
    simp only [parseToks, resolveTok_name s p.1 p.2 hp.1 hp.2]
    rw [ih tailT (acc ||| p.2) hrest]
    rfl

/- ### The iterator yields nothing on the empty value -/

theorem iterNamesAux_zero (fs : List FlagDecl) : iterNamesAux fs 0 = ([], 0) := by
  induction fs with
  | nil => rfl
  | cons f rest ih =>
    rw [iterNamesAux, if_neg, ih]
    rintro ⟨hne, hsub⟩
    rw [Nat.zero_and] at hsub
    exact hne hsub.symm

/- ### Parsing a join of well-formed parts -/

theorem parse_join_eq_parseToks (s : FlagSpec) (q : List Char)
    (ps : List (List Char))
    (hall : ∀ p ∈ q :: ps, trimChars p = p ∧ p ≠ [] ∧ '|' ∉ p) :
    parseFlags s (joinParts (q :: ps)) = parseToks s (q :: ps) 0 := by
  have hq := hall q (List.mem_cons_self q ps)
  obtain ⟨c, hcq, hcws⟩ := exists_nonWs_of_trim_eq hq.1 hq.2.1
  have hcj : c ∈ joinParts (q :: ps) := mem_joinParts_head hcq ps
  have hne : trimChars (joinParts (q :: ps)) ≠ [] :=
    trimChars_ne_nil_of_mem hcj hcws
  rw [parseFlags, if_neg hne]
  rw [split_join_cons ps q hq.2.2
    (fun p hp => (hall p (List.mem_cons_of_mem q hp)).2.2)]
  rw [hq.1, map_id_on trimChars ps
    (fun p hp => (hall p (List.mem_cons_of_mem q hp)).1)]

/- ### Claim theorem: format/parse round trip (C3) -/

/-- Claim C3: for every value `v` of the underlying width — including values
with unknown bits and the empty value — parsing the string produced by
formatting `v` yields a value with identical bits; formatting joins the
present declared flags with `" | "`, appends unknown bits as a trailing
`0x`-prefixed hexadecimal literal, and formats the entirely-empty value as
the empty string.  The flag table is assumed well-formed: names are
non-empty, carry no surrounding whitespace, contain no `|`, do not begin
with `0x`, and resolve to their own bits via `from_name`. -/
theorem C3_format_parse_round_trip (s : FlagSpec) (v : Nat)
    (hv : v < 2 ^ s.width)
    (hg : ∀ f ∈ s.flags, trimChars f.name = f.name ∧ f.name ≠ [] ∧
      '|' ∉ f.name ∧ startsWith0x f.name = false ∧
      from_name s f.name = some f.bits) :
    parseFlags s (formatFlags s v) = some v ∧ formatFlags s 0 = [] := by
  have hzero : formatFlags s 0 = [] := by
    simp [formatFlags, iterNamesAux_zero, joinParts]
  refine ⟨?_, hzero⟩
  have hrlt : (iterNamesAux s.flags v).2 < 2 ^ s.width :=
    lt_two_pow_of_subset (fun i hi => iterNamesAux_rem_subset s.flags v i hi) hv
  have hbits := iterNamesAux_bits s.flags v 0
  have hpair : ∀ p ∈ (iterNamesAux s.flags v).1,
      trimChars p.1 = p.1 ∧ p.1 ≠ [] ∧ '|' ∉ p.1 ∧ from_name s p.1 = some p.2 := by
    intro p hp
    obtain ⟨f, hf, rfl, hfne, hsub⟩ := iterNamesAux_mem s.flags v p hp
    have hgf := hg f hf
    exact ⟨hgf.1, hgf.2.1, hgf.2.2.1, hgf.2.2.2.2⟩
  set tailT : List (List Char) :=
    if (iterNamesAux s.flags v).2 = 0 then []
    else [hexToken (iterNamesAux s.flags v).2] with htail
  have hparts_good : ∀ p ∈ (iterNamesAux s.flags v).1.map Prod.fst ++ tailT,
      trimChars p = p ∧ p ≠ [] ∧ '|' ∉ p := by
    intro p hp
    rcases List.mem_append.mp hp with h1 | h2
    · obtain ⟨pr, hpr, rfl⟩ := List.mem_map.mp h1
      have hpp := hpair pr hpr
      exact ⟨hpp.1, hpp.2.1, hpp.2.2.1⟩
    · rw [htail] at h2
      by_cases hz : (iterNamesAux s.flags v).2 = 0
      · rw [if_pos hz] at h2
        simp at h2
      · rw [if_neg hz] at h2
        simp only [List.mem_singleton] at h2
        subst h2
        refine ⟨trimChars_eq_self (fun c hc => (hexToken_chars _ c hc).1),
          by simp [hexToken], ?_⟩
        intro hbar
        exact ((hexToken_chars _ '|' hbar).2) rfl
  have hresolve :
      parseToks s ((iterNamesAux s.flags v).1.map Prod.fst ++ tailT) 0 = some v := by
    rw [parseToks_names s (iterNamesAux s.flags v).1 tailT 0
      (fun p hp => ⟨(hpair p hp).2.1, (hpair p hp).2.2.2⟩)]
    by_cases hz : (iterNamesAux s.flags v).2 = 0
    · rw [htail, if_pos hz, parseToks]
      congr 1
      rw [hz, Nat.or_zero, Nat.zero_or] at hbits
      exact hbits
    · rw [htail, if_neg hz]
      simp only [parseToks,
        resolveTok_hex s _ hrlt (fun f hf => (hg f hf).2.2.2.1)]
      congr 1
      rw [Nat.zero_or] at hbits
      exact hbits
  simp only [formatFlags]
  rw [← htail]
  cases hpp : (iterNamesAux s.flags v).1.map Prod.fst ++ tailT with
  | nil =>
    have hempty := List.append_eq_nil.mp hpp
    have hz : (iterNamesAux s.flags v).2 = 0 := by
      by_contra hz
      rw [htail, if_neg hz] at hempty
      exact List.cons_ne_nil _ _ hempty.2
    have hpairs_nil : (iterNamesAux s.flags v).1 = [] :=
      List.map_eq_nil_iff.mp hempty.1
    have hv0 : v = 0 := by
      rw [hpairs_nil, hz] at hbits
      simpa using hbits.symm
    rw [hv0]
    rfl
  | cons q ps =>
    rw [parse_join_eq_parseToks s q ps (hpp ▸ hparts_good), ← hpp]
    exact hresolve

/-- Witness for C3: over the `A`/`B`/`C` table, the value `0b1001` (flag `A`
plus the unknown bit `0b1000`) formats as `"A | 0x8"` and parses back to
`0b1001`; the hypotheses on the table hold by evaluation. -/
theorem C3_format_parse_round_trip_witness :
    parseFlags specABC (formatFlags specABC 9) = some 9 ∧
      formatFlags specABC 0 = [] :=
  C3_format_parse_round_trip specABC 9 (by decide) (by decide)

end Bitflags
